import Mathlib

/-!
Shallow embedding of the ESSnoop core: the EVM bytecode decoder
(`modules/opcodesparser.py`), the syntactic metrics and the CFG jump
classifier / reconciler (`modules/jsonanalyzer.py`).  Python strings are
modelled as Lean `String`s manipulated through their character lists;
Python `list`s as `List`, Python `set`s used by the DFS as `List Int`
with insert-if-absent; Python's arbitrary-precision signed integers as
`Int` (counters that are only ever incremented are kept as `Nat`).
-/

namespace ESSnoop

/-- Python `str.split(sep)` for a single-character separator: splitting an
empty string yields `[[]]`, like Python's `[""]`. -/
def splitOnChar (sep : Char) (l : List Char) : List (List Char) :=
  match l with
  | [] => [[]]
  | c :: cs =>
    match splitOnChar sep cs with
    | [] => if c = sep then [[], []] else [[c]]
    | p :: ps => if c = sep then [] :: p :: ps else (c :: p) :: ps

/-- The whitespace set of Python's `str.strip()`. -/
def pyIsSpace (c : Char) : Bool :=
  c == ' ' || c == '\t' || c == '\n' || c == '\r' ||
  c == Char.ofNat 11 || c == Char.ofNat 12

/-- Python `str.strip()` on a character list. -/
def trimChars (l : List Char) : List Char :=
  ((l.dropWhile pyIsSpace).reverse.dropWhile pyIsSpace).reverse

/-- Python `str.strip()`. -/
def pyTrim (s : String) : String :=
  String.mk (trimChars s.data)

/-- Python `str.upper()` (all our inputs are ASCII). -/
def pyUpper (s : String) : String :=
  String.mk (s.data.map Char.toUpper)

/-- Python `str.startswith("PUSH")`. -/
def startsWithPush (s : String) : Bool :=
  "PUSH".data.isPrefixOf s.data

instance exceptDecEq {ε α : Type} [DecidableEq ε] [DecidableEq α] : DecidableEq (Except ε α) :=
  fun x y =>
    match x, y with
    | .ok a, .ok b =>
      if h : a = b then .isTrue (h ▸ rfl) else .isFalse (fun hh => h (Except.ok.inj hh))
    | .error a, .error b =>
      if h : a = b then .isTrue (h ▸ rfl) else .isFalse (fun hh => h (Except.error.inj hh))
    | .ok _, .error _ => .isFalse (fun hh => Except.noConfusion hh)
    | .error _, .ok _ => .isFalse (fun hh => Except.noConfusion hh)

/-- `NodeType` enum of `jsonanalyzer.py`. -/
inductive NodeType where
  | JUMP
  | JUMPI
  | JUMPDEST
  | OTHER
deriving DecidableEq

/-- A CFG node: `{"offset": ..., "parsedOpcodes": ...}` from the
EtherSolve JSON (only the fields the analyzer reads). -/
structure Block where
  offset : Int
  parsedOpcodes : String
deriving DecidableEq

/-- A successor record `{"from": ..., "to": [...]}` of the JSON CFG. -/
structure Edge where
  src : Int
  dst : List Int
deriving DecidableEq

/-- The `runtimeCfg` object: its `nodes` and `successors` collections. -/
structure Cfg where
  blocks : List Block
  edges : List Edge
deriving DecidableEq

/-- `Analyzer.__get_block`: linear scan for the first block with the given
offset; the Python `raise` on absence is modelled by `none`. -/
def get_block (cfg : Cfg) (offset : Int) : Option Block :=
  cfg.blocks.find? (fun b => b.offset == offset)

/-- `Analyzer.__get_dests_from_offset`: collect `list(set(edge["to"]))` for
every edge record whose `from` field matches.  Python's `list(set(xs))`
(the distinct elements of `xs`, in an order no downstream consumer depends
on) is modelled by `List.dedup`. -/
def get_dests_from_offset (cfg : Cfg) (offset : Int) : List Int :=
  cfg.edges.foldl (fun acc e => if e.src == offset then acc ++ e.dst.dedup else acc) []

/-- `Analyzer.__get_dests_from_block`. -/
def get_dests_from_block (cfg : Cfg) (block : Block) : List Int :=
  get_dests_from_offset cfg block.offset

/-- `Analyzer.__get_op_type`: strip, uppercase and classify a mnemonic. -/
def get_op_type (op : String) : NodeType :=
  let o := pyUpper (pyTrim op)
  if o = "JUMP" then .JUMP
  else if o = "JUMPI" then .JUMPI
  else if o = "JUMPDEST" then .JUMPDEST
  else .OTHER

/-- One line `"<offset>: <MNEMONIC> [operand]"` of a block listing:
`line.split(":")[1].strip()` fed to `__get_op_type`; a line without a
colon raises `IndexError`, modelled by `Except.error`. -/
def opFromLine (l : List Char) : Except Unit NodeType :=
  match splitOnChar ':' l with
  | _ :: p :: _ => .ok (get_op_type (pyTrim (String.mk p)))
  | _ => .error ()

/-- `Analyzer.__get_first_last_opcodes`: split the listing on newlines and
classify the first and last line (a single-line listing gives the same
opcode twice; the `len < 1` branch of the source is unreachable since
Python's `split` never returns an empty list). -/
def get_first_last_opcodes (block : Block) : Except Unit (NodeType × NodeType) :=
  match splitOnChar '\n' block.parsedOpcodes.data with
  | [] => .error ()
  | [l] =>
    match opFromLine l with
    | .error e => .error e
    | .ok f => .ok (f, f)
  | l :: l' :: ls =>
    match opFromLine l with
    | .error e => .error e
    | .ok f =>
      match opFromLine ((l' :: ls).getLast (List.cons_ne_nil l' ls)) with
      | .error e => .error e
      | .ok g => .ok (f, g)

/-- `Analyzer.__is_precisely_solved`.  Exceptions raised by the Python
code (missing destination block, malformed listing, non-jump opcode) are
modelled by `Except.error`. -/
def is_precisely_solved (cfg : Cfg) (jump : NodeType) (block : Block) : Except Unit Bool :=
  let dests := get_dests_from_block cfg block
  match jump with
  | .JUMP =>
    match dests with
    | [d] =>
      match get_block cfg d with
      | none => .error ()
      | some dest_block =>
        match get_first_last_opcodes dest_block with
        | .error e => .error e
        | .ok (dest_op, _) => .ok (dest_op == .JUMPDEST)
    | _ => .ok false
  | .JUMPI =>
    match dests with
    | [d₁, d₂] =>
      match get_block cfg d₁ with
      | none => .error ()
      | some block_fst =>
        match get_first_last_opcodes block_fst with
        | .error e => .error e
        | .ok (op_fst, _) =>
          match get_block cfg d₂ with
          | none => .error ()
          | some block_snd =>
            match get_first_last_opcodes block_snd with
            | .error e => .error e
            | .ok (op_snd, _) =>
              .ok ((op_fst == .JUMPDEST && op_snd != .JUMPDEST) ||
                   (op_fst != .JUMPDEST && op_snd == .JUMPDEST))
    | _ => .ok false
  | _ => .error ()

/-- The `for dest in dests` loop of the JUMP branch of
`Analyzer.__is_soundly_solved`: return `True` at the first destination
whose block starts with a JUMPDEST. -/
def sound_jump_loop (cfg : Cfg) : List Int → Except Unit Bool
  | [] => .ok false
  | d :: ds =>
    match get_block cfg d with
    | none => .error ()
    | some dest_block =>
      match get_first_last_opcodes dest_block with
      | .error e => .error e
      | .ok (dest_op, _) =>
        if dest_op == .JUMPDEST then .ok true else sound_jump_loop cfg ds

/-- The `for dest in dests` loop of the JUMPI branch of
`Analyzer.__is_soundly_solved`, threading the `jumpdest_found` and
`non_jumpdest_found` flags. -/
def sound_jumpi_loop (cfg : Cfg) (jd njd : Bool) : List Int → Except Unit Bool
  | [] => .ok false
  | d :: ds =>
    match get_block cfg d with
    | none => .error ()
    | some dest_block =>
      match get_first_last_opcodes dest_block with
      | .error e => .error e
      | .ok (dest_op, _) =>
        let jd' := jd || dest_op == .JUMPDEST
        let njd' := njd || dest_op != .JUMPDEST
        if jd' && njd' then .ok true else sound_jumpi_loop cfg jd' njd' ds

/-- `Analyzer.__is_soundly_solved`. -/
def is_soundly_solved (cfg : Cfg) (jump : NodeType) (block : Block) : Except Unit Bool :=
  let dests := get_dests_from_block cfg block
  match jump with
  | .JUMP => if dests.length < 1 then .ok false else sound_jump_loop cfg dests
  | .JUMPI => if dests.length < 2 then .ok false else sound_jumpi_loop cfg false false dests
  | _ => .error ()

/-- All destination offsets appearing in the edge set (used only to bound
the DFS fuel; not part of the source). -/
def destsAll (cfg : Cfg) : List Int :=
  cfg.edges.foldl (fun acc e => acc ++ e.dst.dedup) []

/-- The `while stack` loop of `Analyzer.__is_unreachable_block`, made
total with an explicit fuel argument (`none` = fuel exhausted; the
sufficiency of the fuel chosen below is proved later).  The stack's top
is the list head; the pushes iterate the destinations in order, skipping
the ones already visited. -/
def push_unvisited (vis : List Int) (ds : List Int) (stack : List Int) : List Int :=
  ds.foldl (fun st d => if d ∈ vis then st else d :: st) stack

def dfsLoop (cfg : Cfg) (target : Int) : Nat → List Int → List Int → Option Bool
  | _, [], _ => some true
  | 0, _ :: _, _ => none
  | fuel + 1, current :: stack, visited =>
    let visited' := visited.insert current
    if current = target then some false
    else
      dfsLoop cfg target fuel
        (push_unvisited visited' (get_dests_from_offset cfg current) stack)
        visited'

/-- Fuel that provably suffices for `dfsLoop` to finish. -/
def dfsFuel (cfg : Cfg) (entrypoint : Int) : Nat :=
  2 + ((entrypoint :: destsAll cfg).toFinset.card) * ((destsAll cfg).length + 1)

/-- `Analyzer.__is_unreachable_block`: DFS from the entrypoint (the Python
default entrypoint is `0`); `True` iff the target offset is never popped. -/
def is_unreachable_block (cfg : Cfg) (target_offset entrypoint : Int) : Bool :=
  match dfsLoop cfg target_offset (dfsFuel cfg entrypoint) [entrypoint] [] with
  | some b => b
  | none => true

/-- The `self.__stats` dictionary of the `Analyzer` class. -/
structure JumpStats where
  precisely_solved_jumps : Nat
  soundly_solved_jumps : Nat
  unreachable_jumps : Nat
  unsolved_jumps : Nat
deriving DecidableEq

/-- The body of the `for block in self.__blocks` loop of
`Analyzer.analyze_jumps`, acting on the running `(stats, encountered_errors)`
pair: a malformed listing sets the flag and skips the block; non-jump
blocks contribute nothing; a classification exception counts the jump as
unsolved and sets the flag. -/
def block_step (cfg : Cfg) (st : JumpStats × Bool) (block : Block) : JumpStats × Bool :=
  match get_first_last_opcodes block with
  | .error _ => (st.1, true)
  | .ok (_, last) =>
    if last ≠ NodeType.JUMP ∧ last ≠ NodeType.JUMPI then st
    else
      match is_precisely_solved cfg last block with
      | .error _ => ({ st.1 with unsolved_jumps := st.1.unsolved_jumps + 1 }, true)
      | .ok true =>
        ({ st.1 with precisely_solved_jumps := st.1.precisely_solved_jumps + 1 }, st.2)
      | .ok false =>
        match is_soundly_solved cfg last block with
        | .error _ => ({ st.1 with unsolved_jumps := st.1.unsolved_jumps + 1 }, true)
        | .ok true =>
          ({ st.1 with soundly_solved_jumps := st.1.soundly_solved_jumps + 1 }, st.2)
        | .ok false =>
          if is_unreachable_block cfg block.offset 0 then
            ({ st.1 with unreachable_jumps := st.1.unreachable_jumps + 1 }, st.2)
          else
            ({ st.1 with unsolved_jumps := st.1.unsolved_jumps + 1 }, st.2)

/-- `Analyzer.analyze_jumps`: fold the per-block step over all blocks,
starting from zeroed stats and a clear error flag. -/
def analyze_jumps (cfg : Cfg) : JumpStats × Bool :=
  cfg.blocks.foldl (block_step cfg) (⟨0, 0, 0, 0⟩, false)

/-- `get_total_opcodes`: the lines of the `.opcodes` file that are
nonempty after stripping. -/
def get_total_opcodes (lines : List String) : Nat :=
  lines.countP (fun line => !(pyTrim line == ""))

/-- `get_total_jumps`: stripped lines equal to `JUMP` or `JUMPI`. -/
def get_total_jumps (lines : List String) : Nat :=
  lines.countP (fun line => pyTrim line == "JUMP" || pyTrim line == "JUMPI")

/-- The loop body of `get_total_orphan_jumps` on the running
`(count, last_push)` state. -/
def orphan_step (acc : Nat × Bool) (line : String) : Nat × Bool :=
  let l := pyTrim line
  if startsWithPush l then (acc.1, true)
  else if l == "JUMP" then (if acc.2 then acc.1 else acc.1 + 1, false)
  else (acc.1, false)

/-- `get_total_orphan_jumps`: count `JUMP` lines not immediately preceded
by a `PUSH*` line, via a single `last_push` boolean. -/
def get_total_orphan_jumps (lines : List String) : Nat :=
  (lines.foldl orphan_step (0, false)).1

/-- The `STATS` dictionary emitted by `analyze` (the `"Smart Contract"`
address field carries no numeric content and is omitted). -/
structure ContractStats where
  total_opcodes : Int
  total_jumps : Int
  solved_jumps : Int
  orphan_jumps : Int
  precisely_solved_jumps : Int
  soundly_solved_jumps : Int
  pending_jumps : Int
  unreachable_jumps : Int
  unsolved_jumps : Int
deriving DecidableEq

/-- The reconciliation tail of `analyze` (lines 560-594 of
`jsonanalyzer.py`): `Solved = precise + sound`; `MISSING_JUMPS` is computed
against the still-zero `Pending Jumps` entry; a positive `MISSING_JUMPS`
raises the error flag; the fold `unreachable += MISSING_JUMPS` is
unconditional; `Pending` is then recomputed. -/
def reconcile (total_opcodes total_jumps orphan_jumps : Int)
    (js : JumpStats) (enc : Bool) : ContractStats × Bool :=
  let solved : Int := (js.precisely_solved_jumps : Int) + (js.soundly_solved_jumps : Int)
  let pending₀ : Int := 0
  let missing : Int := total_jumps - (solved + pending₀)
  let enc' : Bool := enc || decide (missing > 0)
  let unreachable' : Int := (js.unreachable_jumps : Int) + missing
  let pending' : Int := (js.unsolved_jumps : Int) + unreachable'
  (⟨total_opcodes, total_jumps, solved, orphan_jumps,
    (js.precisely_solved_jumps : Int), (js.soundly_solved_jumps : Int),
    pending', unreachable', (js.unsolved_jumps : Int)⟩, enc')

/-- `analyze` on an already-loaded `.opcodes` line list and CFG (the file
existence checks and JSON loading are I/O plumbing outside the core):
syntactic metrics, then `analyze_jumps`, then reconciliation.  The second
component is true iff the contract address would be returned as errored. -/
def analyze (lines : List String) (cfg : Cfg) : ContractStats × Bool :=
  let js := analyze_jumps cfg
  reconcile (get_total_opcodes lines) (get_total_jumps lines)
    (get_total_orphan_jumps lines) js.1 js.2

/-- `push_bytes` of `opcodesparser.py`: immediate length of a PUSH opcode
byte (two lowercase hex characters), `0` for everything else. -/
def push_bytes (opcode : String) : Nat :=
  match opcode with
  | "60" => 1 | "61" => 2 | "62" => 3 | "63" => 4
  | "64" => 5 | "65" => 6 | "66" => 7 | "67" => 8
  | "68" => 9 | "69" => 10 | "6a" => 11 | "6b" => 12
  | "6c" => 13 | "6d" => 14 | "6e" => 15 | "6f" => 16
  | "70" => 17 | "71" => 18 | "72" => 19 | "73" => 20
  | "74" => 21 | "75" => 22 | "76" => 23 | "77" => 24
  | "78" => 25 | "79" => 26 | "7a" => 27 | "7b" => 28
  | "7c" => 29 | "7d" => 30 | "7e" => 31 | "7f" => 32
  | _ => 0

/-- `get_opcode_string` of `opcodesparser.py`: the EVM mnemonic table
(note the source's `case "49", "4f"` matches only those two strings). -/
def get_opcode_string (opcode : String) : String :=
  match opcode with
  | "00" => "STOP" | "01" => "ADD" | "02" => "MUL" | "03" => "SUB"
  | "04" => "DIV" | "05" => "SDIV" | "06" => "MOD" | "07" => "SMOD"
  | "08" => "ADDMOD" | "09" => "MULMOD" | "0a" => "EXP" | "0b" => "SIGNEXTEND"
  | "10" => "LT" | "11" => "GT" | "12" => "SLT" | "13" => "SGT"
  | "14" => "EQ" | "15" => "ISZERO" | "16" => "AND" | "17" => "OR"
  | "18" => "XOR" | "19" => "NOT" | "1a" => "BYTE" | "1b" => "SHL"
  | "1c" => "SHR" | "1d" => "SAR" | "20" => "SHA3"
  | "30" => "ADDRESS" | "31" => "BALANCE" | "32" => "ORIGIN" | "33" => "CALLER"
  | "34" => "CALLVALUE" | "35" => "CALLDATALOAD" | "36" => "CALLDATASIZE"
  | "37" => "CALLDATACOPY" | "38" => "CODESIZE" | "39" => "CODECOPY"
  | "3a" => "GASPRICE" | "3b" => "EXTCODESIZE" | "3c" => "EXTCODECOPY"
  | "3d" => "RETURNDATASIZE" | "3e" => "RETURNDATACOPY" | "3f" => "EXTCODEHASH"
  | "40" => "BLOCKHASH" | "41" => "COINBASE" | "42" => "TIMESTAMP"
  | "43" => "NUMBER" | "44" => "DIFFICULTY" | "45" => "GASLIMIT"
  | "46" => "CHAINID" | "47" => "SELFBALANCE" | "48" => "BASEFEE"
  | "49" | "4f" => "INVALID"
  | "50" => "POP" | "51" => "MLOAD" | "52" => "MSTORE" | "53" => "MSTORE8"
  | "54" => "SLOAD" | "55" => "SSTORE" | "56" => "JUMP" | "57" => "JUMPI"
  | "58" => "PC" | "59" => "MSIZE" | "5a" => "GAS" | "5b" => "JUMPDEST"
  | "5f" => "PUSH0"
  | "80" => "DUP1" | "81" => "DUP2" | "82" => "DUP3" | "83" => "DUP4"
  | "84" => "DUP5" | "85" => "DUP6" | "86" => "DUP7" | "87" => "DUP8"
  | "88" => "DUP9" | "89" => "DUP10" | "8a" => "DUP11" | "8b" => "DUP12"
  | "8c" => "DUP13" | "8d" => "DUP14" | "8e" => "DUP15" | "8f" => "DUP16"
  | "90" => "SWAP1" | "91" => "SWAP2" | "92" => "SWAP3" | "93" => "SWAP4"
  | "94" => "SWAP5" | "95" => "SWAP6" | "96" => "SWAP7" | "97" => "SWAP8"
  | "98" => "SWAP9" | "99" => "SWAP10" | "9a" => "SWAP11" | "9b" => "SWAP12"
  | "9c" => "SWAP13" | "9d" => "SWAP14" | "9e" => "SWAP15" | "9f" => "SWAP16"
  | "a0" => "LOG0" | "a1" => "LOG1" | "a2" => "LOG2" | "a3" => "LOG3"
  | "a4" => "LOG4"
  | "f0" => "CREATE" | "f1" => "CALL" | "f2" => "CALLCODE" | "f3" => "RETURN"
  | "f4" => "DELEGATECALL" | "f5" => "CREATE2" | "fa" => "STATICCALL"
  | "fd" => "REVERT" | "fe" => "INVALID" | "ff" => "SELFDESTRUCT"
  | _ => "'" ++ opcode ++ "'(Unknown Opcode)"

/-- The textual form `PUSH{n} 0x{imm}` written by the parser. -/
def pushInstrString (n : Nat) (imm : List Char) : String :=
  "PUSH" ++ toString n ++ " 0x" ++ String.mk imm

/-- The `while i < len(bytecode)` loop of `parse_bytecode` over the
payload characters: read two characters (one at an odd tail), look the
byte up in the PUSH table, and either emit a plain mnemonic or a
`PUSHn 0x...` instruction whose immediate is the next `2n` characters —
clamped, as Python slicing is, to whatever remains.  The loop consumes at
least one character per iteration, so a fuel of `s.length` is enough;
structural recursion on the fuel keeps the function kernel-reducible. -/
def parseOpsAux : Nat → List Char → List String
  | _, [] => []
  | _, [c] => [get_opcode_string (String.mk [c])]
  | 0, _ :: _ :: _ => []
  | fuel + 1, c₁ :: c₂ :: rest =>
    let opcode := String.mk [c₁, c₂]
    let n := push_bytes opcode
    if n = 0 then
      get_opcode_string opcode :: parseOpsAux fuel rest
    else
      pushInstrString n (rest.take (2 * n)) :: parseOpsAux fuel (rest.drop (2 * n))

/-- The decoding loop run on a whole payload. -/
def parseOps (s : List Char) : List String :=
  parseOpsAux s.length s

/-- The validation and parsing core of `parse_bytecode` (file-system
plumbing omitted): reject inputs of fewer than 4 characters or without
the `0x` prefix, then decode the payload after the prefix. -/
def parse_bytecode (bytecode : String) : Except Unit (List String) :=
  if bytecode.length < 4 then .error ()
  else if ¬ bytecode.data.take 2 = ['0', 'x'] then .error ()
  else .ok (parseOps (bytecode.data.drop 2))

/-! ### Helper lemmas -/

theorem parseOpsAux_nil (f : Nat) : parseOpsAux f [] = [] := by
  cases f <;> rfl

theorem parseOpsAux_single (f : Nat) (c : Char) :
    parseOpsAux f [c] = [get_opcode_string (String.mk [c])] := by
  cases f <;> rfl

theorem parseOpsAux_cons (f : Nat) (c₁ c₂ : Char) (rest : List Char) :
    parseOpsAux (f + 1) (c₁ :: c₂ :: rest) =
      (if push_bytes (String.mk [c₁, c₂]) = 0 then
        get_opcode_string (String.mk [c₁, c₂]) :: parseOpsAux f rest
      else
        pushInstrString (push_bytes (String.mk [c₁, c₂]))
            (rest.take (2 * push_bytes (String.mk [c₁, c₂]))) ::
          parseOpsAux f (rest.drop (2 * push_bytes (String.mk [c₁, c₂])))) := rfl

theorem parseOpsAux_congr :
    ∀ (f₁ f₂ : Nat) (s : List Char), s.length ≤ f₁ + 1 → s.length ≤ f₂ + 1 →
      parseOpsAux f₁ s = parseOpsAux f₂ s := by
  intro f₁
  induction f₁ with
  | zero =>
    intro f₂ s h₁ _
    match s with
    | [] => rw [parseOpsAux_nil, parseOpsAux_nil]
    | [c] => rw [parseOpsAux_single, parseOpsAux_single]
    | _ :: _ :: _ => simp at h₁
  | succ f ih =>
    intro f₂ s h₁ h₂
    match s with
    | [] => rw [parseOpsAux_nil, parseOpsAux_nil]
    | [c] => rw [parseOpsAux_single, parseOpsAux_single]
    | c₁ :: c₂ :: rest =>
      match f₂ with
      | 0 => simp at h₂
      | g + 1 =>
        rw [parseOpsAux_cons, parseOpsAux_cons]
        simp only [List.length_cons] at h₁ h₂
        by_cases hn : push_bytes (String.mk [c₁, c₂]) = 0
        · rw [if_pos hn, if_pos hn, ih g rest (by omega) (by omega)]
        · rw [if_neg hn, if_neg hn,
            ih g (rest.drop (2 * push_bytes (String.mk [c₁, c₂])))
              (by simpa using by omega)
              (by simpa using by omega)]

theorem parseOps_nil : parseOps [] = [] := rfl

theorem parseOps_single (c : Char) :
    parseOps [c] = [get_opcode_string (String.mk [c])] := rfl

theorem parseOps_cons (c₁ c₂ : Char) (rest : List Char) :
    parseOps (c₁ :: c₂ :: rest) =
      (if push_bytes (String.mk [c₁, c₂]) = 0 then
        get_opcode_string (String.mk [c₁, c₂]) :: parseOps rest
      else
        pushInstrString (push_bytes (String.mk [c₁, c₂]))
            (rest.take (2 * push_bytes (String.mk [c₁, c₂]))) ::
          parseOps (rest.drop (2 * push_bytes (String.mk [c₁, c₂])))) := by
  show parseOpsAux (rest.length + 1 + 1) (c₁ :: c₂ :: rest) = _
  rw [parseOpsAux_cons]
  by_cases hn : push_bytes (String.mk [c₁, c₂]) = 0
  · rw [if_pos hn, if_pos hn,
      parseOpsAux_congr (rest.length + 1) rest.length rest (by omega) (by omega)]
    rfl
  · rw [if_neg hn, if_neg hn,
      parseOpsAux_congr (rest.length + 1)
        (rest.drop (2 * push_bytes (String.mk [c₁, c₂]))).length
        (rest.drop (2 * push_bytes (String.mk [c₁, c₂])))
        (by simp; omega) (by omega)]
    rfl

/-- `orphan_step` adds the line's orphan contribution and records whether
the line is a PUSH. -/
theorem orphan_step_eq (cnt : Nat) (b : Bool) (line : String) :
    orphan_step (cnt, b) line =
      (cnt + (if (pyTrim line == "JUMP") && !b then 1 else 0),
       startsWithPush (pyTrim line)) := by
  unfold orphan_step
  by_cases hp : startsWithPush (pyTrim line)
  · have hj : (pyTrim line == "JUMP") = false := by
      by_cases he : pyTrim line = "JUMP"
      · rw [he] at hp; exact absurd hp (by decide)
      · simp [he]
    simp [hp, hj]
  · by_cases hj : (pyTrim line == "JUMP") = true
    · simp only [Bool.not_eq_true] at hp
      cases b <;> simp [hp, hj]
    · simp only [Bool.not_eq_true] at hp hj
      simp [hp, hj]

theorem orphan_fold (lines : List String) :
    ∀ (cnt : Nat) (b : Bool),
      (lines.foldl orphan_step (cnt, b)).1 =
        cnt + ((lines.zip (b :: lines.map fun l => startsWithPush (pyTrim l))).countP
          (fun p => (pyTrim p.1 == "JUMP") && !p.2)) := by
  induction lines with
  | nil => intro cnt b; simp
  | cons l ls ih =>
    intro cnt b
    rw [List.foldl_cons, orphan_step_eq, ih, List.zip_cons_cons, List.countP_cons]
    simp only [List.countP_cons]
    by_cases hc : ((pyTrim l == "JUMP") && !b) = true
    · simp [hc]; omega
    · simp only [Bool.not_eq_true] at hc
      simp [hc]

/-! ### Concrete inputs used by counterexamples and witnesses -/

/-- Two successor records with the same `from` offset, both naming
destination `5`. -/
def cfgDupEdges : Cfg := ⟨[], [⟨0, [5]⟩, ⟨0, [5]⟩]⟩

/-! ### Claim theorems -/

/-- C9: `get_total_orphan_jumps` counts exactly the `JUMP` lines whose
immediately preceding line is not a PUSH of any size (the first line has
no predecessor, so a leading `JUMP` is orphan; `JUMPI` is never counted
because only the exact mnemonic `JUMP` matches); on the stream
`PUSH1 0x10, JUMP, JUMP` there are two JUMPs and one orphan. -/
theorem c9_orphan_jumps :
    (∀ lines : List String,
      get_total_orphan_jumps lines =
        ((lines.zip (false :: lines.map fun l => startsWithPush (pyTrim l))).countP
          (fun p => (pyTrim p.1 == "JUMP") && !p.2))) ∧
    get_total_jumps ["PUSH1 0x10", "JUMP", "JUMP"] = 2 ∧
    get_total_orphan_jumps ["PUSH1 0x10", "JUMP", "JUMP"] = 1 := by
  refine ⟨fun lines => ?_, by decide, by decide⟩
  show (lines.foldl orphan_step (0, false)).1 = _
  rw [orphan_fold]
  omega

/-- C10: the decoder loop always makes strict progress (each iteration
consumes at least the opcode byte, so it terminates), and a PUSH opcode
whose declared immediate length exceeds the remaining payload emits a
single `PUSHn` instruction carrying the truncated (possibly empty)
immediate, after which decoding ends. -/
theorem c10_decoder_totality :
    (∀ s : List Char, s ≠ [] →
      ∃ (instr : String) (s' : List Char),
        parseOps s = instr :: parseOps s' ∧ s'.length < s.length) ∧
    (∀ (c₁ c₂ : Char) (imm : List Char),
      1 ≤ push_bytes (String.mk [c₁, c₂]) →
      imm.length < 2 * push_bytes (String.mk [c₁, c₂]) →
      parseOps (c₁ :: c₂ :: imm) =
        [pushInstrString (push_bytes (String.mk [c₁, c₂])) imm]) := by
  constructor
  · intro s hs
    match s with
    | [c] =>
      exact ⟨get_opcode_string (String.mk [c]), [], by rw [parseOps_single, parseOps_nil], by simp⟩
    | c₁ :: c₂ :: rest =>
      by_cases hn : push_bytes (String.mk [c₁, c₂]) = 0
      · refine ⟨get_opcode_string (String.mk [c₁, c₂]), rest, ?_,
          by simp only [List.length_cons]; omega⟩
        rw [parseOps_cons, if_pos hn]
      · refine ⟨pushInstrString (push_bytes (String.mk [c₁, c₂]))
            (rest.take (2 * push_bytes (String.mk [c₁, c₂]))),
          rest.drop (2 * push_bytes (String.mk [c₁, c₂])), ?_, by simp; omega⟩
        rw [parseOps_cons, if_neg hn]
  · intro c₁ c₂ imm h₁ h₂
    rw [parseOps_cons, if_neg (by omega), List.take_of_length_le (by omega),
      List.drop_eq_nil_of_le (by omega), parseOps_nil]

/-- C10 witness: `"00"` decodes with strict progress, and the payload
`"60A"` (PUSH1 with a one-character immediate) decodes to a single
truncated PUSH1 instruction. -/
theorem c10_decoder_totality_witness :
    (∃ (instr : String) (s' : List Char),
      parseOps ['0', '0'] = instr :: parseOps s' ∧ s'.length < 2) ∧
    parseOps ['6', '0', 'A'] =
      [pushInstrString (push_bytes (String.mk ['6', '0'])) ['A']] :=
  ⟨c10_decoder_totality.1 ['0', '0'] (by decide),
   c10_decoder_totality.2 '6' '0' ['A'] (by decide) (by decide)⟩

/-- C4 (amended): `parse_bytecode` fails exactly when the input does not
start with `0x` or has fewer than 4 characters in total, i.e. fewer than
2 payload hex characters (one payload byte) after the prefix; `"0x"` is
rejected, but — contrary to the claim — `"0xAB"`, with a single payload
byte, is accepted. -/
theorem c4_decoder_validation :
    (∀ s : String,
      parse_bytecode s = .error () ↔
        (s.length < 4 ∨ s.data.take 2 ≠ ['0', 'x'])) ∧
    parse_bytecode "0x" = .error () := by
  refine ⟨fun s => ?_, by decide⟩
  unfold parse_bytecode
  by_cases h₁ : s.length < 4
  · simp [h₁]
  · by_cases h₂ : s.data.take 2 = ['0', 'x'] <;> simp [h₁, h₂]

/-- C4 counterexample: the claim says `"0xAB"` is rejected as too short,
but the length guard `len(bytecode) < 4` counts the `0x` prefix, so
`"0xAB"` is accepted and decodes to one instruction. -/
theorem c4_decoder_validation_cex :
    parse_bytecode "0xAB" = .ok ["'AB'(Unknown Opcode)"] := by decide

/-- C1 (amended): after the classifier runs, `solved = precise + sound`
and `missing = total_jumps - solved` (the pending entry read at that
point is still zero); the fold `unreachable += missing` is applied
unconditionally — an increase exactly when `missing > 0`, no change at
`missing = 0`, a decrease when `missing < 0` — the final error flag is
the classifier flag or-ed with `missing > 0`, and `pending` is recomputed
as `unsolved + unreachable` after the fold; the worked example
`total_jumps = 5, precise = 2, sound = 1, unreachable = 0, unsolved = 1`
yields `solved = 3`, `unreachable = 2`, `pending = 3` with the flag set. -/
theorem c1_reconciliation :
    (∀ (tOps tj orph : Int) (js : JumpStats) (enc : Bool),
      (reconcile tOps tj orph js enc).1.solved_jumps =
        (js.precisely_solved_jumps : Int) + (js.soundly_solved_jumps : Int) ∧
      (reconcile tOps tj orph js enc).1.unreachable_jumps =
        (js.unreachable_jumps : Int) +
          (tj - (reconcile tOps tj orph js enc).1.solved_jumps) ∧
      (reconcile tOps tj orph js enc).1.pending_jumps =
        (js.unsolved_jumps : Int) +
          (reconcile tOps tj orph js enc).1.unreachable_jumps ∧
      (reconcile tOps tj orph js enc).2 =
        (enc || decide (tj - (reconcile tOps tj orph js enc).1.solved_jumps > 0))) ∧
    reconcile 0 5 0 ⟨2, 1, 0, 1⟩ false = (⟨0, 5, 3, 0, 2, 1, 3, 2, 1⟩, true) := by
  refine ⟨fun tOps tj orph js enc => ?_, by decide⟩
  refine ⟨rfl, ?_, rfl, ?_⟩ <;> simp [reconcile]

/-- C1 counterexample: with syntactic `total_jumps = 0` and one
precisely solved jump, `missing = -1` is not positive, yet the
unconditional fold changes the unreachable count from `0` to `-1`; the
claim's `if and only if missing > 0` reading says it should have stayed
`0`. -/
theorem c1_reconciliation_cex :
    (reconcile 0 0 0 ⟨1, 0, 0, 0⟩ false).1.unreachable_jumps = -1 ∧
    (reconcile 0 0 0 ⟨1, 0, 0, 0⟩ false).1.unreachable_jumps ≠ (0 : Int) ∧
    ¬((reconcile 0 0 0 ⟨1, 0, 0, 0⟩ false).1.total_jumps -
        (reconcile 0 0 0 ⟨1, 0, 0, 0⟩ false).1.solved_jumps > 0) := by decide

/-- C5: the code bug.  Two edge records with the same `from` offset whose
`to` lists share a destination produce a destination list that contains
that offset twice: `list(set(...))` deduplicates only within one record,
although the function's own docstring promises "It makes sure dests are
unique" and the spec promises deduplication across the whole union. -/
theorem c5_dedup_bug :
    get_dests_from_offset cfgDupEdges 0 = [5, 5] ∧
    ¬ (get_dests_from_offset cfgDupEdges 0).Nodup := by decide

/-! ### C2: the shape of the solved checks -/

/-- The first opcode of the block a destination offset resolves to
(the lookup-then-parse sequence the classifier performs per destination). -/
def dest_first_op (cfg : Cfg) (d : Int) : Except Unit NodeType :=
  match get_block cfg d with
  | none => .error ()
  | some blk =>
    match get_first_last_opcodes blk with
    | .error e => .error e
    | .ok (f, _) => .ok f

/-- Whether a destination offset resolves to a block whose listing
parses. -/
def resolvesB (cfg : Cfg) (d : Int) : Bool :=
  match dest_first_op cfg d with
  | .ok _ => true
  | .error _ => false

theorem dest_first_op_eq {cfg : Cfg} {d : Int} {blk : Block} {f l : NodeType}
    (hg : get_block cfg d = some blk)
    (hf : get_first_last_opcodes blk = .ok (f, l)) :
    dest_first_op cfg d = .ok f := by
  unfold dest_first_op
  simp only [hg, hf]

theorem resolvesB_elim {cfg : Cfg} {d : Int} (h : resolvesB cfg d = true) :
    ∃ blk f l, get_block cfg d = some blk ∧ get_first_last_opcodes blk = .ok (f, l) := by
  unfold resolvesB dest_first_op at h
  cases hg : get_block cfg d with
  | none => simp only [hg] at h; exact Bool.noConfusion h
  | some blk =>
    simp only [hg] at h
    cases hf : get_first_last_opcodes blk with
    | error e => simp only [hf] at h; exact Bool.noConfusion h
    | ok p => exact ⟨blk, p.1, p.2, rfl, by rw [hf]⟩

theorem exists_mem_cons_split {α : Type} (P : α → Prop) (a : α) (l : List α) :
    (∃ x ∈ a :: l, P x) ↔ P a ∨ ∃ x ∈ l, P x := by
  constructor
  · rintro ⟨x, hx, hP⟩
    rcases List.mem_cons.mp hx with h | h
    · exact Or.inl (h ▸ hP)
    · exact Or.inr ⟨x, h, hP⟩
  · rintro (hP | ⟨x, hx, hP⟩)
    · exact ⟨a, List.mem_cons_self a l, hP⟩
    · exact ⟨x, List.mem_cons_of_mem a hx, hP⟩

theorem sound_jump_loop_iff (cfg : Cfg) (ds : List Int)
    (hres : ∀ d ∈ ds, resolvesB cfg d = true) :
    (sound_jump_loop cfg ds = .ok true ↔
      ∃ d ∈ ds, dest_first_op cfg d = .ok .JUMPDEST) := by
  induction ds with
  | nil => simp [sound_jump_loop]
  | cons d ds ih =>
    obtain ⟨blk, f, l, hg, hf⟩ := resolvesB_elim (hres d (List.mem_cons_self d ds))
    have hop := dest_first_op_eq hg hf
    have hdJD : dest_first_op cfg d = .ok .JUMPDEST ↔ f = NodeType.JUMPDEST := by
      rw [hop]
      exact ⟨fun h => Except.ok.inj h, fun h => h ▸ rfl⟩
    unfold sound_jump_loop
    simp only [hg, hf]
    rw [exists_mem_cons_split, hdJD]
    by_cases hJ : f = NodeType.JUMPDEST
    · rw [if_pos (by simp [hJ])]
      exact ⟨fun _ => Or.inl hJ, fun _ => rfl⟩
    · rw [if_neg (by simp [hJ]),
        ih (fun x hx => hres x (List.mem_cons_of_mem d hx))]
      exact ⟨fun h => Or.inr h, fun h => h.elim (fun h' => absurd h' hJ) id⟩

theorem sound_jumpi_loop_iff (cfg : Cfg) :
    ∀ (ds : List Int) (jd njd : Bool), (∀ d ∈ ds, resolvesB cfg d = true) →
      (sound_jumpi_loop cfg jd njd ds = .ok true ↔
        ds ≠ [] ∧
        (jd = true ∨ ∃ d ∈ ds, dest_first_op cfg d = .ok .JUMPDEST) ∧
        (njd = true ∨ ∃ d ∈ ds, ¬ dest_first_op cfg d = .ok .JUMPDEST)) := by
  intro ds
  induction ds with
  | nil => intro jd njd _; simp [sound_jumpi_loop]
  | cons d ds ih =>
    intro jd njd hres
    obtain ⟨blk, f, l, hg, hf⟩ := resolvesB_elim (hres d (List.mem_cons_self d ds))
    have hop := dest_first_op_eq hg hf
    have hdJD : dest_first_op cfg d = .ok .JUMPDEST ↔ f = NodeType.JUMPDEST := by
      rw [hop]
      exact ⟨fun h => Except.ok.inj h, fun h => h ▸ rfl⟩
    have hAiff : (jd = true ∨ ∃ x ∈ d :: ds, dest_first_op cfg x = .ok .JUMPDEST) ↔
        ((jd || f == NodeType.JUMPDEST) = true ∨
          ∃ x ∈ ds, dest_first_op cfg x = .ok .JUMPDEST) := by
      rw [exists_mem_cons_split, hdJD, ← or_assoc, Bool.or_eq_true, beq_iff_eq]
    have hBiff : (njd = true ∨ ∃ x ∈ d :: ds, ¬ dest_first_op cfg x = .ok .JUMPDEST) ↔
        ((njd || f != NodeType.JUMPDEST) = true ∨
          ∃ x ∈ ds, ¬ dest_first_op cfg x = .ok .JUMPDEST) := by
      rw [exists_mem_cons_split, hdJD, ← or_assoc, Bool.or_eq_true, bne_iff_ne]
    unfold sound_jumpi_loop
    simp only [hg, hf]
    by_cases hboth : ((jd || f == NodeType.JUMPDEST) && (njd || f != NodeType.JUMPDEST)) = true
    · rw [if_pos hboth]
      rw [Bool.and_eq_true] at hboth
      constructor
      · intro _
        exact ⟨List.cons_ne_nil d ds, hAiff.mpr (Or.inl hboth.1), hBiff.mpr (Or.inl hboth.2)⟩
      · intro _; rfl
    · rw [if_neg hboth,
        ih (jd || f == NodeType.JUMPDEST) (njd || f != NodeType.JUMPDEST)
          (fun x hx => hres x (List.mem_cons_of_mem d hx))]
      constructor
      · rintro ⟨_, hA, hB⟩
        exact ⟨List.cons_ne_nil d ds, hAiff.mpr hA, hBiff.mpr hB⟩
      · rintro ⟨-, hA, hB⟩
        have hA' := hAiff.mp hA
        have hB' := hBiff.mp hB
        refine ⟨?_, hA', hB'⟩
        rintro rfl
        have h₁ : (jd || f == NodeType.JUMPDEST) = true := by
          rcases hA' with h | ⟨x, hx, -⟩
          · exact h
          · simp at hx
        have h₂ : (njd || f != NodeType.JUMPDEST) = true := by
          rcases hB' with h | ⟨x, hx, -⟩
          · exact h
          · simp at hx
        exact hboth (by rw [h₁, h₂]; rfl)

theorem precise_jump_iff (cfg : Cfg) (b : Block)
    (hres : ∀ d ∈ get_dests_from_block cfg b, resolvesB cfg d = true) :
    (is_precisely_solved cfg .JUMP b = .ok true ↔
      ∃ d, get_dests_from_block cfg b = [d] ∧ dest_first_op cfg d = .ok .JUMPDEST) := by
  unfold is_precisely_solved
  rcases hD : get_dests_from_block cfg b with - | ⟨d, - | ⟨d₂, tl⟩⟩
  · simp [hD]
  · obtain ⟨blk, f, l, hg, hf⟩ := resolvesB_elim (hres d (by rw [hD]; exact List.mem_cons_self _ _))
    have hop := dest_first_op_eq hg hf
    simp only [hD, hg, hf]
    constructor
    · intro h
      have hf' : (f == NodeType.JUMPDEST) = true := Except.ok.inj h
      refine ⟨d, rfl, ?_⟩
      rw [hop, beq_iff_eq.mp hf']
    · rintro ⟨d', hd', hJD⟩
      have : d' = d := by
        have := List.cons.inj hd'
        exact this.1.symm
      subst this
      rw [hop] at hJD
      rw [Except.ok.inj hJD]
      rfl
  · simp [hD]

theorem precise_jumpi_iff (cfg : Cfg) (b : Block)
    (hres : ∀ d ∈ get_dests_from_block cfg b, resolvesB cfg d = true) :
    (is_precisely_solved cfg .JUMPI b = .ok true ↔
      ∃ d₁ d₂, get_dests_from_block cfg b = [d₁, d₂] ∧
        ((dest_first_op cfg d₁ = .ok .JUMPDEST ∧ ¬ dest_first_op cfg d₂ = .ok .JUMPDEST) ∨
         (¬ dest_first_op cfg d₁ = .ok .JUMPDEST ∧ dest_first_op cfg d₂ = .ok .JUMPDEST))) := by
  unfold is_precisely_solved
  rcases hD : get_dests_from_block cfg b with - | ⟨d₁, - | ⟨d₂, - | ⟨d₃, tl⟩⟩⟩
  · simp [hD]
  · simp [hD]
  · obtain ⟨blk₁, f₁, l₁, hg₁, hf₁⟩ :=
      resolvesB_elim (hres d₁ (by rw [hD]; exact List.mem_cons_self _ _))
    obtain ⟨blk₂, f₂, l₂, hg₂, hf₂⟩ :=
      resolvesB_elim (hres d₂ (by rw [hD]; exact List.mem_cons_of_mem _ (List.mem_cons_self _ _)))
    have hop₁ := dest_first_op_eq hg₁ hf₁
    have hop₂ := dest_first_op_eq hg₂ hf₂
    have hJD₁ : dest_first_op cfg d₁ = .ok .JUMPDEST ↔ f₁ = NodeType.JUMPDEST := by
      rw [hop₁]; exact ⟨fun h => Except.ok.inj h, fun h => h ▸ rfl⟩
    have hJD₂ : dest_first_op cfg d₂ = .ok .JUMPDEST ↔ f₂ = NodeType.JUMPDEST := by
      rw [hop₂]; exact ⟨fun h => Except.ok.inj h, fun h => h ▸ rfl⟩
    simp only [hD, hg₁, hf₁, hg₂, hf₂]
    constructor
    · intro h
      have hb := Except.ok.inj h
      rw [Bool.or_eq_true, Bool.and_eq_true, Bool.and_eq_true,
        beq_iff_eq, beq_iff_eq, bne_iff_ne, bne_iff_ne] at hb
      refine ⟨d₁, d₂, rfl, ?_⟩
      rcases hb with ⟨h₁, h₂⟩ | ⟨h₁, h₂⟩
      · exact Or.inl ⟨hJD₁.mpr h₁, fun hc => h₂ (hJD₂.mp hc)⟩
      · exact Or.inr ⟨fun hc => h₁ (hJD₁.mp hc), hJD₂.mpr h₂⟩
    · rintro ⟨d₁', d₂', hd', hcase⟩
      obtain ⟨he₁, he₂⟩ : d₁' = d₁ ∧ d₂' = d₂ := by
        have h1 := List.cons.inj hd'
        have h2 := List.cons.inj h1.2
        exact ⟨h1.1.symm, h2.1.symm⟩
      subst he₁
      subst he₂
      have hb : ((f₁ == NodeType.JUMPDEST && f₂ != NodeType.JUMPDEST) ||
          (f₁ != NodeType.JUMPDEST && f₂ == NodeType.JUMPDEST)) = true := by
        rw [Bool.or_eq_true, Bool.and_eq_true, Bool.and_eq_true,
          beq_iff_eq, beq_iff_eq, bne_iff_ne, bne_iff_ne]
        rcases hcase with ⟨h₁, h₂⟩ | ⟨h₁, h₂⟩
        · exact Or.inl ⟨hJD₁.mp h₁, fun hc => h₂ (hJD₂.mpr hc)⟩
        · exact Or.inr ⟨fun hc => h₁ (hJD₁.mpr hc), hJD₂.mp h₂⟩
      rw [hb]
  · simp [hD]

/-- C2: under the proviso that every destination offset of the block
resolves to a block with a parsable listing, a JUMP is precisely solved
iff its destination list is exactly one offset whose block starts with
JUMPDEST, soundly solved iff the list is nonempty and some destination
block starts with JUMPDEST; a JUMPI is precisely solved iff the list is
exactly two offsets of which exactly one starts with JUMPDEST, soundly
solved iff the list has at least two entries with at least one JUMPDEST
start and at least one non-JUMPDEST start. -/
theorem c2_classifier_shapes (cfg : Cfg) (b : Block)
    (hres : ∀ d ∈ get_dests_from_block cfg b, resolvesB cfg d = true) :
    (is_precisely_solved cfg .JUMP b = .ok true ↔
      ∃ d, get_dests_from_block cfg b = [d] ∧ dest_first_op cfg d = .ok .JUMPDEST) ∧
    (is_soundly_solved cfg .JUMP b = .ok true ↔
      1 ≤ (get_dests_from_block cfg b).length ∧
      ∃ d ∈ get_dests_from_block cfg b, dest_first_op cfg d = .ok .JUMPDEST) ∧
    (is_precisely_solved cfg .JUMPI b = .ok true ↔
      ∃ d₁ d₂, get_dests_from_block cfg b = [d₁, d₂] ∧
        ((dest_first_op cfg d₁ = .ok .JUMPDEST ∧ ¬ dest_first_op cfg d₂ = .ok .JUMPDEST) ∨
         (¬ dest_first_op cfg d₁ = .ok .JUMPDEST ∧ dest_first_op cfg d₂ = .ok .JUMPDEST))) ∧
    (is_soundly_solved cfg .JUMPI b = .ok true ↔
      2 ≤ (get_dests_from_block cfg b).length ∧
      (∃ d ∈ get_dests_from_block cfg b, dest_first_op cfg d = .ok .JUMPDEST) ∧
      (∃ d ∈ get_dests_from_block cfg b, ¬ dest_first_op cfg d = .ok .JUMPDEST)) := by
  refine ⟨precise_jump_iff cfg b hres, ?_, precise_jumpi_iff cfg b hres, ?_⟩
  · unfold is_soundly_solved
    change (if (get_dests_from_block cfg b).length < 1 then (Except.ok false : Except Unit Bool)
      else sound_jump_loop cfg (get_dests_from_block cfg b)) = Except.ok true ↔ _
    by_cases hlen : (get_dests_from_block cfg b).length < 1
    · rw [if_pos hlen]
      constructor
      · intro h; exact absurd (Except.ok.inj h) (by simp)
      · rintro ⟨h₁, -⟩; omega
    · rw [if_neg hlen, sound_jump_loop_iff cfg _ hres]
      exact ⟨fun h => ⟨by omega, h⟩, fun h => h.2⟩
  · unfold is_soundly_solved
    change (if (get_dests_from_block cfg b).length < 2 then (Except.ok false : Except Unit Bool)
      else sound_jumpi_loop cfg false false (get_dests_from_block cfg b)) = Except.ok true ↔ _
    by_cases hlen : (get_dests_from_block cfg b).length < 2
    · rw [if_pos hlen]
      constructor
      · intro h; exact absurd (Except.ok.inj h) (by simp)
      · rintro ⟨h₁, -⟩; omega
    · rw [if_neg hlen, sound_jumpi_loop_iff cfg _ false false hres]
      constructor
      · rintro ⟨-, hA, hB⟩
        refine ⟨by omega, ?_, ?_⟩
        · rcases hA with h | h
          · exact Bool.noConfusion h
          · exact h
        · rcases hB with h | h
          · exact Bool.noConfusion h
          · exact h
      · rintro ⟨hl, hA, hB⟩
        refine ⟨?_, Or.inr hA, Or.inr hB⟩
        intro hnil
        rw [hnil] at hl
        simp at hl

/-- C2 witness: a concrete CFG in which the JUMP block at offset 0 has
the single destination 2 whose block starts with JUMPDEST, so the JUMP
is precisely solved. -/
theorem c2_classifier_shapes_witness :
    is_precisely_solved ⟨[⟨0, "0: JUMP"⟩, ⟨2, "2: JUMPDEST"⟩], [⟨0, [2]⟩]⟩
      .JUMP ⟨0, "0: JUMP"⟩ = .ok true :=
  ((c2_classifier_shapes ⟨[⟨0, "0: JUMP"⟩, ⟨2, "2: JUMPDEST"⟩], [⟨0, [2]⟩]⟩
      ⟨0, "0: JUMP"⟩ (by decide)).1).mpr ⟨2, by decide, by decide⟩

/-! ### C7 and C3: per-block isolation and evaluation order -/

/-- What a single block contributes to the jump stats and the error flag,
starting from a clean state. -/
def block_contrib (cfg : Cfg) (b : Block) : JumpStats × Bool :=
  block_step cfg (⟨0, 0, 0, 0⟩, false) b

/-- Componentwise sum of jump-stat records. -/
def js_add (a c : JumpStats) : JumpStats :=
  ⟨a.precisely_solved_jumps + c.precisely_solved_jumps,
   a.soundly_solved_jumps + c.soundly_solved_jumps,
   a.unreachable_jumps + c.unreachable_jumps,
   a.unsolved_jumps + c.unsolved_jumps⟩

/-- One loop iteration only ever adds the block's own contribution to the
running stats and or-s in the block's own error flag: it neither reads
the accumulated counts nor aborts. -/
theorem block_step_add (cfg : Cfg) (st : JumpStats × Bool) (b : Block) :
    block_step cfg st b =
      (js_add st.1 (block_contrib cfg b).1, st.2 || (block_contrib cfg b).2) := by
  unfold block_contrib block_step
  cases h₁ : get_first_last_opcodes b with
  | error e => simp [js_add]
  | ok p =>
    obtain ⟨f, last⟩ := p
    dsimp only
    by_cases h₂ : last ≠ NodeType.JUMP ∧ last ≠ NodeType.JUMPI
    · simp [h₂, js_add]
    · rw [if_neg h₂, if_neg h₂]
      cases h₃ : is_precisely_solved cfg last b with
      | error e => simp [js_add]
      | ok bp =>
        cases bp with
        | true => simp [js_add]
        | false =>
          cases h₄ : is_soundly_solved cfg last b with
          | error e => simp [js_add]
          | ok bs =>
            cases bs with
            | true => simp [js_add]
            | false =>
              by_cases h₅ : is_unreachable_block cfg b.offset 0 = true
              · simp [h₅, js_add]
              · rw [Bool.not_eq_true] at h₅
                simp [h₅, js_add]

/-- `analyze_jumps` equals the independent per-block contributions,
summed, with the flag the disjunction of the per-block flags. -/
theorem analyze_jumps_additive (cfg : Cfg) :
    analyze_jumps cfg =
      ((cfg.blocks.map (fun b => (block_contrib cfg b).1)).foldl js_add ⟨0, 0, 0, 0⟩,
       cfg.blocks.any (fun b => (block_contrib cfg b).2)) := by
  have key : ∀ (bs : List Block) (st : JumpStats × Bool),
      bs.foldl (block_step cfg) st =
        ((bs.map (fun b => (block_contrib cfg b).1)).foldl js_add st.1,
         st.2 || bs.any (fun b => (block_contrib cfg b).2)) := by
    intro bs
    induction bs with
    | nil => intro st; simp
    | cons b bs ih =>
      intro st
      rw [List.foldl_cons, block_step_add, ih, List.map_cons, List.foldl_cons,
        List.any_cons]
      refine congrArg _ ?_
      rw [Bool.or_assoc]
  unfold analyze_jumps
  rw [key]
  simp

/-- The CFG used by the C7 counterexample: the JUMP block at offset 0 has
destinations `[2, 99]`; offset 2 is a JUMPDEST block, offset 99 has no
block at all. -/
def cfgDangling : Cfg := ⟨[⟨0, "0: JUMP"⟩, ⟨2, "2: JUMPDEST"⟩], [⟨0, [2, 99]⟩]⟩

/-- A CFG whose only JUMP block has a single dangling destination. -/
def cfgDanglingOnly : Cfg := ⟨[⟨0, "0: JUMP"⟩], [⟨0, [99]⟩]⟩

/-- C7 (amended): `analyze_jumps` is a total function equal to the fold of
independent per-block contributions (one bad block never aborts or skews
the others), a jump whose classification dereferences a dangling
destination — e.g. a JUMP whose destination list is exactly that dangling
offset — contributes one Unsolved count and raises the flag, and a block
whose listing fails to parse contributes nothing but raises the flag. -/
theorem c7_error_isolation :
    (∀ cfg : Cfg,
      analyze_jumps cfg =
        ((cfg.blocks.map (fun b => (block_contrib cfg b).1)).foldl js_add ⟨0, 0, 0, 0⟩,
         cfg.blocks.any (fun b => (block_contrib cfg b).2))) ∧
    (∀ (cfg : Cfg) (b : Block) (f : NodeType) (d : Int),
      get_first_last_opcodes b = .ok (f, .JUMP) →
      get_dests_from_block cfg b = [d] →
      get_block cfg d = none →
      block_contrib cfg b = (⟨0, 0, 0, 1⟩, true)) ∧
    (∀ (cfg : Cfg) (b : Block),
      get_first_last_opcodes b = .error () →
      block_contrib cfg b = (⟨0, 0, 0, 0⟩, true)) := by
  refine ⟨analyze_jumps_additive, ?_, ?_⟩
  · intro cfg b f d h₁ h₂ h₃
    have hp : is_precisely_solved cfg .JUMP b = .error () := by
      unfold is_precisely_solved
      simp only [h₂, h₃]
    unfold block_contrib block_step
    rw [h₁]
    dsimp only
    rw [if_neg (by simp), hp]
  · intro cfg b h
    unfold block_contrib block_step
    rw [h]

/-- C7 witness: the dangling-single-destination JUMP contributes one
Unsolved with the flag raised, and a block with an unparsable (empty)
listing contributes nothing with the flag raised. -/
theorem c7_error_isolation_witness :
    block_contrib cfgDanglingOnly ⟨0, "0: JUMP"⟩ = (⟨0, 0, 0, 1⟩, true) ∧
    block_contrib cfgDanglingOnly ⟨0, ""⟩ = (⟨0, 0, 0, 0⟩, true) :=
  ⟨c7_error_isolation.2.1 cfgDanglingOnly ⟨0, "0: JUMP"⟩ .JUMP 99
     (by decide) (by decide) (by decide),
   c7_error_isolation.2.2 cfgDanglingOnly ⟨0, ""⟩ (by decide)⟩

/-- C7 counterexample: offset 99 is a dangling destination of the JUMP
block at offset 0, yet the contract ends with zero Unsolved jumps and a
clear error flag, because the soundly-solved scan accepts the JUMPDEST
destination 2 before ever looking 99 up.  The claim says this jump is
counted Unsolved with the flag set. -/
theorem c7_error_isolation_cex :
    get_block cfgDangling 99 = none ∧
    (99 : Int) ∈ get_dests_from_block cfgDangling ⟨0, "0: JUMP"⟩ ∧
    get_first_last_opcodes ⟨0, "0: JUMP"⟩ = .ok (.JUMP, .JUMP) ∧
    analyze_jumps cfgDangling = (⟨0, 1, 0, 0⟩, false) := by decide

/-- The CFG of the C3 quirk: the block at offset 7 ends in a JUMP whose
single destination 9 starts with JUMPDEST (a precisely solved shape), but
nothing links the entry block 0 to it, so offset 7 is unreachable. -/
def cfgQuirk : Cfg :=
  ⟨[⟨0, "0: STOP"⟩, ⟨7, "7: PUSH1 0x09\n9: JUMP"⟩, ⟨9, "9: JUMPDEST"⟩], [⟨7, [9]⟩]⟩

/-- C3: for every jump-terminated block the loop body realises the
priority order precисely-solved, then soundly-solved, then unreachable,
then unsolved — reachability is consulted only after both solved checks
fail — and consequently the concrete solved-shaped block of `cfgQuirk`,
although unreachable from entry, is counted as precisely solved. -/
theorem c3_priority_order :
    (∀ (cfg : Cfg) (st : JumpStats × Bool) (b : Block) (f last : NodeType),
      get_first_last_opcodes b = .ok (f, last) →
      (last = .JUMP ∨ last = .JUMPI) →
      (is_precisely_solved cfg last b = .ok true →
        block_step cfg st b =
          ({ st.1 with precisely_solved_jumps := st.1.precisely_solved_jumps + 1 }, st.2)) ∧
      (is_precisely_solved cfg last b = .ok false →
        is_soundly_solved cfg last b = .ok true →
        block_step cfg st b =
          ({ st.1 with soundly_solved_jumps := st.1.soundly_solved_jumps + 1 }, st.2)) ∧
      (is_precisely_solved cfg last b = .ok false →
        is_soundly_solved cfg last b = .ok false →
        is_unreachable_block cfg b.offset 0 = true →
        block_step cfg st b =
          ({ st.1 with unreachable_jumps := st.1.unreachable_jumps + 1 }, st.2)) ∧
      (is_precisely_solved cfg last b = .ok false →
        is_soundly_solved cfg last b = .ok false →
        is_unreachable_block cfg b.offset 0 = false →
        block_step cfg st b =
          ({ st.1 with unsolved_jumps := st.1.unsolved_jumps + 1 }, st.2))) ∧
    (is_precisely_solved cfgQuirk .JUMP ⟨7, "7: PUSH1 0x09\n9: JUMP"⟩ = .ok true ∧
     is_unreachable_block cfgQuirk 7 0 = true ∧
     block_step cfgQuirk (⟨0, 0, 0, 0⟩, false) ⟨7, "7: PUSH1 0x09\n9: JUMP"⟩ =
       (⟨1, 0, 0, 0⟩, false)) := by
  constructor
  · intro cfg st b f last h₁ h₂
    have hcond : ¬(last ≠ NodeType.JUMP ∧ last ≠ NodeType.JUMPI) := by
      rcases h₂ with h | h <;> simp [h]
    refine ⟨?_, ?_, ?_, ?_⟩
    · intro hp
      unfold block_step
      rw [h₁]
      dsimp only
      rw [if_neg hcond, hp]
    · intro hp hs
      unfold block_step
      rw [h₁]
      dsimp only
      rw [if_neg hcond, hp]
      dsimp only
      rw [hs]
    · intro hp hs hu
      unfold block_step
      rw [h₁]
      dsimp only
      rw [if_neg hcond, hp]
      dsimp only
      rw [hs]
      dsimp only
      rw [hu]
      rw [if_pos rfl]
    · intro hp hs hu
      unfold block_step
      rw [h₁]
      dsimp only
      rw [if_neg hcond, hp]
      dsimp only
      rw [hs]
      dsimp only
      rw [hu]
      rw [if_neg (by simp)]
  · exact ⟨by decide, by decide, by decide⟩

/-- C3 witness: the quirk block of `cfgQuirk` is handled by the first
branch of the priority chain even though it is unreachable from entry. -/
theorem c3_priority_order_witness :
    block_step cfgQuirk (⟨0, 0, 0, 0⟩, false) ⟨7, "7: PUSH1 0x09\n9: JUMP"⟩ =
      (⟨1, 0, 0, 0⟩, false) :=
  (c3_priority_order.1 cfgQuirk (⟨0, 0, 0, 0⟩, false) ⟨7, "7: PUSH1 0x09\n9: JUMP"⟩
    .OTHER .JUMP (by decide) (Or.inl rfl)).1 (by decide)

/-! ### C8: non-negativity of the emitted stats -/

/-- A CFG with one precisely solved jump (block 0 ends in JUMP, its only
destination 4 starts with JUMPDEST); paired with an empty opcode stream
it drives the reconciled unreachable count negative. -/
def cfgSolved : Cfg :=
  ⟨[⟨0, "0: PUSH1 0x05\n2: JUMP"⟩, ⟨4, "4: JUMPDEST"⟩], [⟨0, [4]⟩]⟩

/-- C8 (amended): every numeric field of the emitted record is
non-negative except the reconciled `unreachable` and `pending` counts,
which are non-negative provided the syntactic jump total is at least the
classifier's solved count (they go negative exactly when `missing < 0`,
i.e. when solved exceeds the syntactic total). -/
theorem c8_nonnegativity (lines : List String) (cfg : Cfg) :
    0 ≤ (analyze lines cfg).1.total_opcodes ∧
    0 ≤ (analyze lines cfg).1.total_jumps ∧
    0 ≤ (analyze lines cfg).1.orphan_jumps ∧
    0 ≤ (analyze lines cfg).1.precisely_solved_jumps ∧
    0 ≤ (analyze lines cfg).1.soundly_solved_jumps ∧
    0 ≤ (analyze lines cfg).1.unsolved_jumps ∧
    0 ≤ (analyze lines cfg).1.solved_jumps ∧
    ((analyze lines cfg).1.solved_jumps ≤ (analyze lines cfg).1.total_jumps →
      0 ≤ (analyze lines cfg).1.unreachable_jumps ∧
      0 ≤ (analyze lines cfg).1.pending_jumps) := by
  unfold analyze reconcile
  dsimp only
  refine ⟨by positivity, by positivity, by positivity, by positivity, by positivity,
    by positivity, by positivity, fun h => ⟨?_, ?_⟩⟩ <;> omega

/-- C8 witness: on the one-line stream `JUMP` with an empty CFG the
solved count does not exceed the total, and the reconciled counts are
non-negative. -/
theorem c8_nonnegativity_witness :
    0 ≤ (analyze ["JUMP"] (Cfg.mk [] [])).1.unreachable_jumps ∧
    0 ≤ (analyze ["JUMP"] (Cfg.mk [] [])).1.pending_jumps :=
  (c8_nonnegativity ["JUMP"] ⟨[], []⟩).2.2.2.2.2.2.2 (by decide)

/-- C8 counterexample: the empty opcode stream has `total_jumps = 0`,
while the CFG supplies one (precisely) solved jump, so the reconciliation
adds `missing = -1` and both `unreachable` and `pending` end at `-1`. -/
theorem c8_nonnegativity_cex :
    (analyze [] cfgSolved).1.unreachable_jumps = -1 ∧
    (analyze [] cfgSolved).1.unreachable_jumps < 0 ∧
    (analyze [] cfgSolved).1.pending_jumps < 0 := by decide

/-! ### C6: correctness of the reachability search -/

/-- The successor relation induced by the merged edge records. -/
def destRel (cfg : Cfg) (a b : Int) : Prop :=
  b ∈ get_dests_from_offset cfg a

theorem push_unvisited_eq (vis : List Int) :
    ∀ (ds stack : List Int),
      ∃ pre, push_unvisited vis ds stack = pre ++ stack ∧
        (∀ w ∈ pre, w ∈ ds ∧ w ∉ vis) ∧
        (∀ w ∈ ds, w ∉ vis → w ∈ pre) := by
  intro ds
  induction ds with
  | nil => exact fun stack => ⟨[], rfl, by simp, by simp⟩
  | cons d ds ih =>
    intro stack
    by_cases hd : d ∈ vis
    · obtain ⟨pre, h₁, h₂, h₃⟩ := ih stack
      refine ⟨pre, ?_, ?_, ?_⟩
      · show push_unvisited vis ds (if d ∈ vis then stack else d :: stack) = _
        rw [if_pos hd]
        exact h₁
      · exact fun w hw => ⟨List.mem_cons_of_mem d (h₂ w hw).1, (h₂ w hw).2⟩
      · intro w hw hwv
        rcases List.mem_cons.mp hw with h | h
        · exact absurd (h ▸ hd) hwv
        · exact h₃ w h hwv
    · obtain ⟨pre, h₁, h₂, h₃⟩ := ih (d :: stack)
      refine ⟨pre ++ [d], ?_, ?_, ?_⟩
      · show push_unvisited vis ds (if d ∈ vis then stack else d :: stack) = _
        rw [if_neg hd, h₁, List.append_assoc]
        rfl
      · intro w hw
        rcases List.mem_append.mp hw with h | h
        · exact ⟨List.mem_cons_of_mem d (h₂ w h).1, (h₂ w h).2⟩
        · have : w = d := by simpa using h
          exact ⟨this ▸ List.mem_cons_self d ds, this ▸ hd⟩
      · intro w hw hwv
        rcases List.mem_cons.mp hw with h | h
        · exact List.mem_append.mpr (Or.inr (by simp [h]))
        · exact List.mem_append.mpr (Or.inl (h₃ w h hwv))

theorem push_unvisited_mem (vis ds stack : List Int) (w : Int) :
    w ∈ push_unvisited vis ds stack ↔ w ∈ stack ∨ (w ∈ ds ∧ w ∉ vis) := by
  obtain ⟨pre, h₁, h₂, h₃⟩ := push_unvisited_eq vis ds stack
  rw [h₁]
  constructor
  · intro hw
    rcases List.mem_append.mp hw with h | h
    · exact Or.inr (h₂ w h)
    · exact Or.inl h
  · rintro (h | ⟨h, hv⟩)
    · exact List.mem_append.mpr (Or.inr h)
    · exact List.mem_append.mpr (Or.inl (h₃ w h hv))

theorem push_unvisited_length (vis : List Int) :
    ∀ (ds stack : List Int),
      (push_unvisited vis ds stack).length ≤ ds.length + stack.length := by
  intro ds
  induction ds with
  | nil => intro stack; simp [push_unvisited]
  | cons d ds ih =>
    intro stack
    show (push_unvisited vis ds (if d ∈ vis then stack else d :: stack)).length ≤ _
    by_cases hd : d ∈ vis
    · rw [if_pos hd]
      calc (push_unvisited vis ds stack).length ≤ ds.length + stack.length := ih stack
        _ ≤ (d :: ds).length + stack.length := by simp
    · rw [if_neg hd]
      calc (push_unvisited vis ds (d :: stack)).length ≤ ds.length + (d :: stack).length :=
            ih (d :: stack)
        _ = (d :: ds).length + stack.length := by simp; omega

theorem push_unvisited_all_visited (vis : List Int) :
    ∀ (ds stack : List Int), (∀ d ∈ ds, d ∈ vis) →
      push_unvisited vis ds stack = stack := by
  intro ds
  induction ds with
  | nil => intro stack _; rfl
  | cons d ds ih =>
    intro stack h
    show push_unvisited vis ds (if d ∈ vis then stack else d :: stack) = stack
    rw [if_pos (h d (List.mem_cons_self d ds))]
    exact ih stack (fun x hx => h x (List.mem_cons_of_mem d hx))

/-- Every destination of any offset appears in `destsAll`. -/
theorem mem_destsAll (cfg : Cfg) (x w : Int)
    (hw : w ∈ get_dests_from_offset cfg x) : w ∈ destsAll cfg := by
  unfold get_dests_from_offset at hw
  unfold destsAll
  have key : ∀ (es : List Edge) (acc₁ acc₂ : List Int),
      (∀ v ∈ acc₁, v ∈ acc₂) →
      ∀ v ∈ es.foldl (fun acc e => if e.src == x then acc ++ e.dst.dedup else acc) acc₁,
        v ∈ es.foldl (fun acc e => acc ++ e.dst.dedup) acc₂ := by
    intro es
    induction es with
    | nil => intro acc₁ acc₂ hsub v hv; exact hsub v hv
    | cons e es ih =>
      intro acc₁ acc₂ hsub v hv
      rw [List.foldl_cons] at hv ⊢
      refine ih _ _ ?_ v hv
      intro u hu
      by_cases he : e.src == x
      · rw [if_pos he] at hu
        rcases List.mem_append.mp hu with h | h
        · exact List.mem_append.mpr (Or.inl (hsub u h))
        · exact List.mem_append.mpr (Or.inr h)
      · rw [if_neg he] at hu
        exact List.mem_append.mpr (Or.inl (hsub u hu))
  exact key cfg.edges [] [] (by simp) w hw

/-- The per-offset destination list is no longer than `destsAll`. -/
theorem dests_length_le (cfg : Cfg) (x : Int) :
    (get_dests_from_offset cfg x).length ≤ (destsAll cfg).length := by
  unfold get_dests_from_offset destsAll
  have key : ∀ (es : List Edge) (acc₁ acc₂ : List Int),
      acc₁.length ≤ acc₂.length →
      (es.foldl (fun acc e => if e.src == x then acc ++ e.dst.dedup else acc) acc₁).length ≤
        (es.foldl (fun acc e => acc ++ e.dst.dedup) acc₂).length := by
    intro es
    induction es with
    | nil => intro acc₁ acc₂ h; exact h
    | cons e es ih =>
      intro acc₁ acc₂ h
      rw [List.foldl_cons, List.foldl_cons]
      refine ih _ _ ?_
      by_cases he : e.src == x
      · rw [if_pos he]; simp; omega
      · rw [if_neg he]; simp; omega
  exact key cfg.edges [] [] (by simp)

/-- The stack-discipline invariant of the DFS loop: whenever an already
visited offset sits on the stack, each of its destinations is either
visited or lies strictly above it on the stack (so popping a visited
offset pushes nothing). -/
def OrderedInv (cfg : Cfg) (stack visited : List Int) : Prop :=
  ∀ pre x post, stack = pre ++ x :: post → x ∈ visited →
    ∀ w ∈ get_dests_from_offset cfg x, w ∈ visited ∨ w ∈ pre

theorem orderedInv_head_visited {cfg : Cfg} {cur : Int} {stack visited : List Int}
    (hOI : OrderedInv cfg (cur :: stack) visited) (hv : cur ∈ visited) :
    ∀ w ∈ get_dests_from_offset cfg cur, w ∈ visited := by
  intro w hw
  rcases hOI [] cur stack rfl hv w hw with h | h
  · exact h
  · exact absurd h (by simp)

theorem orderedInv_step {cfg : Cfg} {cur : Int} {stack visited : List Int}
    (hOI : OrderedInv cfg (cur :: stack) visited) :
    OrderedInv cfg
      (push_unvisited (visited.insert cur) (get_dests_from_offset cfg cur) stack)
      (visited.insert cur) := by
  obtain ⟨pre₀, hps, hpre₀, hcomp⟩ :=
    push_unvisited_eq (visited.insert cur) (get_dests_from_offset cfg cur) stack
  intro pre x post hdec hxvis w hw
  rw [hps] at hdec
  by_cases hwv : w ∈ visited.insert cur
  · exact Or.inl hwv
  · refine Or.inr ?_
    rcases List.append_eq_append_iff.mp hdec with ⟨a, ha₁, ha₂⟩ | ⟨c, hc₁, hc₂⟩
    · -- x lies in the old stack region: stack = a ++ x :: post, pre = pre₀ ++ a
      rcases List.mem_insert_iff.mp hxvis with hxc | hxv
      · -- x is (a later copy of) cur
        subst hxc
        have : w ∈ pre₀ := hcomp w hw hwv
        rw [ha₁]
        exact List.mem_append.mpr (Or.inl this)
      · -- x was already visited: use the old invariant at cur :: stack
        have hold : (cur :: stack) = (cur :: a) ++ x :: post := by
          rw [ha₂]; rfl
        rcases hOI (cur :: a) x post hold hxv w hw with h | h
        · exact absurd (List.mem_insert_iff.mpr (Or.inr h)) hwv
        · rcases List.mem_cons.mp h with h' | h'
          · exact absurd (List.mem_insert_iff.mpr (Or.inl h')) hwv
          · rw [ha₁]
            exact List.mem_append.mpr (Or.inr h')
    · -- x would lie in the freshly pushed region
      match c, hc₂ with
      | [], hc₂ =>
        -- pre₀ = pre and stack = x :: post
        rcases List.mem_insert_iff.mp hxvis with hxc | hxv
        · subst hxc
          have : w ∈ pre₀ := hcomp w hw hwv
          rw [hc₁] at this
          simpa using this
        · have hst : stack = x :: post := by simpa using hc₂.symm
          have hold : (cur :: stack) = [cur] ++ x :: post := by
            rw [hst]; rfl
          rcases hOI [cur] x post hold hxv w hw with h | h
          · exact absurd (List.mem_insert_iff.mpr (Or.inr h)) hwv
          · have : w = cur := by simpa using h
            exact absurd (List.mem_insert_iff.mpr (Or.inl this)) hwv
      | y :: c, hc₂ =>
        -- then x ∈ pre₀, but pushed offsets are never visited
        have hx₀ : x ∈ pre₀ := by
          rw [hc₁]
          have : x = y := (List.cons.inj hc₂).1
          simp [this]
        exact absurd hxvis (hpre₀ x hx₀).2

theorem dfsLoop_nil (cfg : Cfg) (target : Int) (fuel : Nat) (visited : List Int) :
    dfsLoop cfg target fuel [] visited = some true := by
  cases fuel <;> rfl

theorem dfsLoop_zero_cons (cfg : Cfg) (target cur : Int) (rest visited : List Int) :
    dfsLoop cfg target 0 (cur :: rest) visited = none := rfl

theorem dfsLoop_cons (cfg : Cfg) (target cur : Int) (fuel : Nat) (rest visited : List Int) :
    dfsLoop cfg target (fuel + 1) (cur :: rest) visited =
      if cur = target then some false
      else dfsLoop cfg target fuel
        (push_unvisited (visited.insert cur) (get_dests_from_offset cfg cur) rest)
        (visited.insert cur) := rfl

/-- The fuel chosen below always suffices: the loop never runs out. -/
theorem dfsLoop_ne_none (cfg : Cfg) (target : Int) (U : List Int)
    (hUd : ∀ w ∈ destsAll cfg, w ∈ U) :
    ∀ (fuel : Nat) (stack visited : List Int),
      (∀ x ∈ stack, x ∈ U) →
      OrderedInv cfg stack visited →
      stack.length +
        (U.toFinset \ visited.toFinset).card * ((destsAll cfg).length + 1) < fuel →
      dfsLoop cfg target fuel stack visited ≠ none := by
  intro fuel
  induction fuel with
  | zero => intro stack visited _ _ hm; omega
  | succ fuel ih =>
    intro stack visited hsub hOI hm
    cases stack with
    | nil => rw [dfsLoop_nil]; simp
    | cons cur rest =>
      rw [dfsLoop_cons]
      by_cases htgt : cur = target
      · rw [if_pos htgt]; simp
      · rw [if_neg htgt]
        by_cases hv : cur ∈ visited
        · have hins : visited.insert cur = visited := List.insert_of_mem hv
          have hpush : push_unvisited (visited.insert cur)
              (get_dests_from_offset cfg cur) rest = rest := by
            rw [hins]
            exact push_unvisited_all_visited _ _ _ (orderedInv_head_visited hOI hv)
          rw [hpush, hins]
          have hOI' : OrderedInv cfg rest visited := by
            have := orderedInv_step hOI
            rwa [hpush, hins] at this
          refine ih rest visited (fun x hx => hsub x (List.mem_cons_of_mem _ hx)) hOI' ?_
          revert hm
          generalize (U.toFinset \ visited.toFinset).card * ((destsAll cfg).length + 1) = Y
          intro hm
          simp only [List.length_cons] at hm
          omega
        · have hOI' := orderedInv_step hOI
          refine ih _ _ ?_ hOI' ?_
          · intro x hx
            rcases (push_unvisited_mem _ _ _ x).mp hx with h | ⟨h, -⟩
            · exact hsub x (List.mem_cons_of_mem _ h)
            · exact hUd x (mem_destsAll cfg cur x h)
          · have hlen : (push_unvisited (visited.insert cur)
                (get_dests_from_offset cfg cur) rest).length ≤
                (destsAll cfg).length + rest.length := by
              calc (push_unvisited (visited.insert cur)
                    (get_dests_from_offset cfg cur) rest).length ≤
                  (get_dests_from_offset cfg cur).length + rest.length :=
                    push_unvisited_length _ _ _
                _ ≤ (destsAll cfg).length + rest.length := by
                    have := dests_length_le cfg cur
                    omega
            have hfin : (visited.insert cur).toFinset = insert cur visited.toFinset := by
              ext a
              simp [List.mem_insert_iff]
            have hcard : (U.toFinset \ (visited.insert cur).toFinset).card <
                (U.toFinset \ visited.toFinset).card := by
              rw [hfin]
              apply Finset.card_lt_card
              rw [Finset.ssubset_iff_of_subset
                (Finset.sdiff_subset_sdiff (le_refl _) (Finset.subset_insert _ _))]
              refine ⟨cur, ?_, ?_⟩
              · rw [Finset.mem_sdiff]
                exact ⟨List.mem_toFinset.mpr (hsub cur (List.mem_cons_self _ _)),
                  fun hc => hv (List.mem_toFinset.mp hc)⟩
              · rw [Finset.mem_sdiff]
                rintro ⟨-, hc⟩
                exact hc (Finset.mem_insert_self _ _)
            have hmul : (U.toFinset \ (visited.insert cur).toFinset).card *
                  ((destsAll cfg).length + 1) + ((destsAll cfg).length + 1) ≤
                (U.toFinset \ visited.toFinset).card * ((destsAll cfg).length + 1) := by
              have h1 : (U.toFinset \ (visited.insert cur).toFinset).card + 1 ≤
                  (U.toFinset \ visited.toFinset).card := hcard
              calc (U.toFinset \ (visited.insert cur).toFinset).card *
                    ((destsAll cfg).length + 1) + ((destsAll cfg).length + 1) =
                  ((U.toFinset \ (visited.insert cur).toFinset).card + 1) *
                    ((destsAll cfg).length + 1) := by ring
                _ ≤ (U.toFinset \ visited.toFinset).card * ((destsAll cfg).length + 1) :=
                    Nat.mul_le_mul_right _ h1
            revert hm hmul hlen
            generalize (U.toFinset \ (visited.insert cur).toFinset).card *
              ((destsAll cfg).length + 1) = X
            generalize (U.toFinset \ visited.toFinset).card *
              ((destsAll cfg).length + 1) = Y
            generalize (push_unvisited (visited.insert cur)
              (get_dests_from_offset cfg cur) rest).length = p
            intro hm hmul hlen
            simp only [List.length_cons] at hm
            omega

/-- If the loop answers "reachable", the target really is reachable from
any set of start offsets that are themselves reachable from the entry. -/
theorem dfsLoop_some_false (cfg : Cfg) (target entry : Int) :
    ∀ (fuel : Nat) (stack visited : List Int),
      (∀ x ∈ stack, Relation.ReflTransGen (destRel cfg) entry x) →
      dfsLoop cfg target fuel stack visited = some false →
      Relation.ReflTransGen (destRel cfg) entry target := by
  intro fuel
  induction fuel with
  | zero =>
    intro stack visited hst h
    cases stack with
    | nil => rw [dfsLoop_nil] at h; exact absurd (Option.some.inj h) (by simp)
    | cons cur rest => rw [dfsLoop_zero_cons] at h; exact Option.noConfusion h
  | succ fuel ih =>
    intro stack visited hst h
    cases stack with
    | nil => rw [dfsLoop_nil] at h; exact absurd (Option.some.inj h) (by simp)
    | cons cur rest =>
      rw [dfsLoop_cons] at h
      by_cases htgt : cur = target
      · exact htgt ▸ hst cur (List.mem_cons_self _ _)
      · rw [if_neg htgt] at h
        refine ih _ _ ?_ h
        intro x hx
        rcases (push_unvisited_mem _ _ _ x).mp hx with hx' | ⟨hx', -⟩
        · exact hst x (List.mem_cons_of_mem _ hx')
        · exact Relation.ReflTransGen.tail (hst cur (List.mem_cons_self _ _)) hx'

/-- A set of offsets closed under successors, containing the entry and
avoiding the target, certifies unreachability. -/
theorem closed_visited_not_reach (cfg : Cfg) {entry target : Int} {visited : List Int}
    (hclosed : ∀ u ∈ visited, ∀ w ∈ get_dests_from_offset cfg u, w ∈ visited)
    (hentry : entry ∈ visited) (htgt : target ∉ visited) :
    ¬ Relation.ReflTransGen (destRel cfg) entry target := by
  intro hreach
  have hvis : ∀ b, Relation.ReflTransGen (destRel cfg) entry b → b ∈ visited := by
    intro b hb
    induction hb with
    | refl => exact hentry
    | tail h₁ h₂ ih => exact hclosed _ ih _ h₂
  exact htgt (hvis target hreach)

/-- If the loop answers "unreachable", no path from the entry reaches the
target. -/
theorem dfsLoop_some_true (cfg : Cfg) (target entry : Int) :
    ∀ (fuel : Nat) (stack visited : List Int),
      (∀ u ∈ visited, ∀ w ∈ get_dests_from_offset cfg u, w ∈ visited ∨ w ∈ stack) →
      (entry ∈ visited ∨ entry ∈ stack) →
      target ∉ visited →
      dfsLoop cfg target fuel stack visited = some true →
      ¬ Relation.ReflTransGen (destRel cfg) entry target := by
  intro fuel
  induction fuel with
  | zero =>
    intro stack visited hclosed hentry htgt h
    cases stack with
    | nil =>
      refine closed_visited_not_reach cfg ?_ ?_ htgt
      · intro u hu w hw
        rcases hclosed u hu w hw with h' | h'
        · exact h'
        · exact absurd h' (by simp)
      · rcases hentry with h' | h'
        · exact h'
        · exact absurd h' (by simp)
    | cons cur rest => rw [dfsLoop_zero_cons] at h; exact Option.noConfusion h
  | succ fuel ih =>
    intro stack visited hclosed hentry htgt h
    cases stack with
    | nil =>
      refine closed_visited_not_reach cfg ?_ ?_ htgt
      · intro u hu w hw
        rcases hclosed u hu w hw with h' | h'
        · exact h'
        · exact absurd h' (by simp)
      · rcases hentry with h' | h'
        · exact h'
        · exact absurd h' (by simp)
    | cons cur rest =>
      rw [dfsLoop_cons] at h
      by_cases htgtc : cur = target
      · rw [if_pos htgtc] at h
        exact absurd (Option.some.inj h) (by simp)
      · rw [if_neg htgtc] at h
        refine ih _ _ ?_ ?_ ?_ h
        · intro u hu w hw
          rcases List.mem_insert_iff.mp hu with hu' | hu'
          · subst hu'
            by_cases hwv : w ∈ visited.insert u
            · exact Or.inl hwv
            · exact Or.inr ((push_unvisited_mem _ _ _ w).mpr (Or.inr ⟨hw, hwv⟩))
          · rcases hclosed u hu' w hw with h' | h'
            · exact Or.inl (List.mem_insert_iff.mpr (Or.inr h'))
            · rcases List.mem_cons.mp h' with h'' | h''
              · exact Or.inl (List.mem_insert_iff.mpr (Or.inl h''))
              · exact Or.inr ((push_unvisited_mem _ _ _ w).mpr (Or.inl h''))
        · rcases hentry with h' | h'
          · exact Or.inl (List.mem_insert_iff.mpr (Or.inr h'))
          · rcases List.mem_cons.mp h' with h'' | h''
            · exact Or.inl (List.mem_insert_iff.mpr (Or.inl h''))
            · exact Or.inr ((push_unvisited_mem _ _ _ entry).mpr (Or.inl h''))
        · intro hc
          rcases List.mem_insert_iff.mp hc with h' | h'
          · exact htgtc h'.symm
          · exact htgt h'

/-- C6: `__is_unreachable_block` on a target offset answers "reachable"
(`False`) exactly when a path of length zero or more leads from the entry
offset 0 to the target in the merged successor relation — so the answer is
a function of the graph alone, independent of the order in which any
correct search explores the frontier. -/
theorem c6_reachability (cfg : Cfg) (target : Int) :
    (is_unreachable_block cfg target 0 = false ↔
      Relation.ReflTransGen (destRel cfg) 0 target) := by
  have hterm : dfsLoop cfg target (dfsFuel cfg 0) [0] [] ≠ none := by
    apply dfsLoop_ne_none cfg target ((0 : Int) :: destsAll cfg)
      (fun w hw => List.mem_cons_of_mem _ hw)
    · intro x hx
      have hx0 : x = 0 := by simpa using hx
      rw [hx0]
      exact List.mem_cons_self _ _
    · intro pre x post _ hxv
      exact absurd hxv (by simp)
    · unfold dfsFuel
      simp only [List.toFinset_nil, Finset.sdiff_empty, List.length_cons,
        List.length_nil]
      exact Nat.add_lt_add_right (by norm_num) _
  cases hr : dfsLoop cfg target (dfsFuel cfg 0) [0] [] with
  | none => exact absurd hr hterm
  | some b =>
    have hiu : is_unreachable_block cfg target 0 = b := by
      unfold is_unreachable_block
      rw [hr]
    rw [hiu]
    cases b with
    | false =>
      constructor
      · intro _
        refine dfsLoop_some_false cfg target 0 _ [0] [] ?_ hr
        intro x hx
        have hx0 : x = 0 := by simpa using hx
        rw [hx0]
      · intro _; rfl
    | true =>
      constructor
      · intro h; exact absurd h (by simp)
      · intro hreach
        exact absurd hreach
          (dfsLoop_some_true cfg target 0 _ [0] []
            (by simp) (Or.inr (by simp)) (by simp) hr)

end ESSnoop
